import Mathlib

/-!
Verification development for the caddy-docker-proxy plugin
(`plugin/loader.go`): a shallow embedding of the directive-tree data
model, the merge engine, the serializer, the argument parser, the swarm
availability prober and the reconciliation `update` step, together with
theorems settling the specification claims.

Go maps `map[string]*directiveData` are embedded as association lists
`List (String × DirectiveData)` with unique keys (a Go map invariant).
Go's randomized map iteration order is made explicit: functions that
iterate a map either sort its keys first (as the source itself does via
`getSortedKeys`) or take the entry list order as the iteration order.
Randomness (`crypto/rand` / `math/rand` draws) is passed in as an
explicit list of natural numbers.
-/

/-- The `directiveData` struct of `loader.go`: a directive has a `name`,
an ordered argument list `args`, and a `children` map from keys to
sub-directives (embedded as an association list). -/
inductive DirectiveData : Type where
  | mk (name : String) (args : List String) (children : List (String × DirectiveData))

/-- Field accessor for `directiveData.name`. -/
def DirectiveData.name : DirectiveData → String
  | .mk n _ _ => n

/-- Field accessor for `directiveData.args`. -/
def DirectiveData.args : DirectiveData → List String
  | .mk _ a _ => a

/-- Field accessor for `directiveData.children`. -/
def DirectiveData.children : DirectiveData → List (String × DirectiveData)
  | .mk _ _ c => c

/-- `func (directive *directiveData) addArgs(args ...string)`:
appends to the argument list. -/
def DirectiveData.addArgs (d : DirectiveData) (extra : List String) : DirectiveData :=
  DirectiveData.mk d.name (d.args ++ extra) d.children

/-- Go map read `m[k]` (as used with a comma-ok check): first binding
with the given key, if any. -/
def lookupAssoc : List (String × DirectiveData) → String → Option DirectiveData
  | [], _ => none
  | (key, d) :: rest, k => if key = k then some d else lookupAssoc rest k

/-- Go map write `m[k] = v`: replaces the binding for `k` when present,
otherwise appends a new binding. -/
def updateAssoc : List (String × DirectiveData) → String → DirectiveData → List (String × DirectiveData)
  | [], k, v => [(k, v)]
  | (key, d) :: rest, k, v =>
    if key = k then (k, v) :: rest else (key, d) :: updateAssoc rest k v

/-- The Go regexp word characters of `suffixRegex = _\d+$`: decimal digits. -/
def isAsciiDigit (c : Char) : Bool := Char.isDigit c

/-- `func removeSuffix(name string) string`: deletes a trailing
underscore-plus-digits group (`suffixRegex.ReplaceAllString(name, "")`). -/
def removeSuffix (name : String) : String :=
  let rev := name.data.reverse
  let digits := rev.takeWhile isAsciiDigit
  match digits, rev.drop digits.length with
  | _ :: _, c :: rest => if c = '_' then String.mk rest.reverse else name
  | _, _ => name

/-- Go's integer-to-string conversion `string(i)` (as applied in
`createUniqueSuffix` to the random draw): the one-rune string holding
the code point `i`, or `"�"` when `i` is not a valid code point
(surrogates and everything above `0x10FFFF`). This is a rune
conversion, not decimal formatting. -/
def goIntToString (n : Nat) : String :=
  if n < 0xD800 ∨ (0xE000 ≤ n ∧ n ≤ 0x10FFFF) then String.mk [Char.ofNat n]
  else String.mk [Char.ofNat 0xFFFD]

/-- `func createUniqueSuffix() string`: draws a random integer
(`crand.Int(crand.Reader, big.NewInt(math.MaxInt64))`, falling back to
`rand.Uint64()` on error) and converts it with `string(...)` — Go's
rune conversion. The draw is passed in explicitly as `r`; both the
primary and the fallback path apply the same conversion. -/
def createUniqueSuffix (r : Nat) : String :=
  goIntToString r

/-- `func directivesAreSimilar`: equal length argument lists with equal
elements position by position (children are ignored). -/
def directivesAreSimilar (directiveA directiveB : DirectiveData) : Bool :=
  if directiveA.args.length ≠ directiveB.args.length then false
  else (List.zip directiveA.args directiveB.args).all (fun p => p.1 == p.2)

/-- The loop body of `mergeDirectives` over `directiveB.children`
(the Go `for keyB, subDirectiveB := range directiveB.children` loop;
the iteration order of the Go map is taken to be the entry-list order,
and the random draws used by `createUniqueSuffix` are consumed from
`rs`). -/
def mergeChildren : List (String × DirectiveData) → List (String × DirectiveData) → List Nat →
    List (String × DirectiveData) × List Nat
  | acc, [], rs => (acc, rs)
  | acc, (keyB, subDirectiveB) :: rest, rs =>
    match lookupAssoc acc keyB with
    | some subDirectiveA =>
      if subDirectiveA.name = "proxy" ∧ subDirectiveB.name = "proxy" ∧
          0 < subDirectiveA.args.length ∧ 0 < subDirectiveB.args.length ∧
          subDirectiveA.args.head? = subDirectiveB.args.head? then
        mergeChildren (updateAssoc acc keyB (subDirectiveA.addArgs (subDirectiveB.args.drop 1))) rest rs
      else if directivesAreSimilar subDirectiveA subDirectiveB then
        mergeChildren acc rest rs
      else
        mergeChildren
          (updateAssoc acc (removeSuffix keyB ++ "_" ++ createUniqueSuffix (rs.headD 0)) subDirectiveB)
          rest rs.tail
    | none => mergeChildren (updateAssoc acc keyB subDirectiveB) rest rs

/-- `func mergeDirectives(directiveA, directiveB *directiveData) *directiveData`:
nil-safe fold of B's children into A, returning the remaining random
supply alongside the result. -/
def mergeDirectives : Option DirectiveData → Option DirectiveData → List Nat →
    Option DirectiveData × List Nat
  | none, directiveB, rs => (directiveB, rs)
  | some directiveA, none, rs => (some directiveA, rs)
  | some directiveA, some directiveB, rs =>
    let merged := mergeChildren directiveA.children directiveB.children rs
    (some (DirectiveData.mk directiveA.name directiveA.args merged.1), merged.2)

/-- `strings.Repeat(" ", level*2)`: two spaces of indentation per
nesting level. -/
def indentStr (level : Nat) : String :=
  String.mk (List.replicate (level * 2) ' ')

/-- The argument loop of `writeDirective`: arguments joined by single
spaces (a space is written before every argument except the first). -/
def joinArgs : List String → String
  | [] => ""
  | arg :: rest => arg ++ String.join (rest.map (fun a => " " ++ a))

/-- `func getKeys(m map[string]*directiveData) []string`. -/
def getKeys (m : List (String × DirectiveData)) : List String :=
  m.map Prod.fst

/-- The ascending string order used by `sort.Strings` (UTF-8 byte order
and code-point order agree), phrased as `<`-or-`=` so that it carries a
kernel-computable decidability instance. -/
def keyOrder (a b : String) : Prop := a < b ∨ a = b

instance (a b : String) : Decidable (keyOrder a b) := by
  unfold keyOrder
  infer_instance

instance : IsTotal String keyOrder :=
  ⟨fun a b => by
    rcases lt_trichotomy a b with h | h | h
    · exact Or.inl (Or.inl h)
    · exact Or.inl (Or.inr h)
    · exact Or.inr (Or.inl h)⟩

instance : IsTrans String keyOrder :=
  ⟨fun a b c hab hbc => by
    rcases hab with h1 | h1 <;> rcases hbc with h2 | h2
    · exact Or.inl (h1.trans h2)
    · exact Or.inl (h2 ▸ h1)
    · exact Or.inl (h1 ▸ h2)
    · exact Or.inr (h1.trans h2)⟩

instance : IsAntisymm String keyOrder :=
  ⟨fun a b hab hba => by
    rcases hab with h1 | h1
    · rcases hba with h2 | h2
      · exact absurd h2 (lt_asymm h1)
      · exact h2.symm
    · exact h1⟩

/-- `func getSortedKeys`: the keys sorted with `sort.Strings`
(ascending lexicographic order). -/
def getSortedKeys (m : List (String × DirectiveData)) : List String :=
  (getKeys m).insertionSort keyOrder

/-- `func writeDirective(buffer, directive, level)`: writes the
indentation, the name (when non-empty), a separating space when both a
name and arguments are present, the space-joined arguments, and — when
there are children — a brace block containing the children rendered at
the next level in sorted key order (the body of the source's
`writeDirectives` loop is inlined here because the two functions are
mutually recursive in the source), and a final newline. -/
def writeDirective : DirectiveData → Nat → String
  | DirectiveData.mk name args children, level =>
    indentStr level
    ++ (if name ≠ "" then name else "")
    ++ (if name ≠ "" ∧ args ≠ [] then " " else "")
    ++ joinArgs args
    ++ (if children.isEmpty then "" else
        " \x7b\n"
        ++ String.join ((getSortedKeys children).map (fun k =>
            match h : lookupAssoc children k with
            | some sub => writeDirective sub (level + 1)
            | none => ""))
        ++ indentStr level ++ "\x7d")
    ++ "\n"
termination_by d _ => sizeOf d
decreasing_by
  rename_i hemp
  clear hemp
  revert h
  induction children with
  | nil =>
    intro h
    simp [lookupAssoc] at h
  | cons hd tl ih =>
    obtain ⟨key, v⟩ := hd
    intro h
    rw [lookupAssoc] at h
    by_cases hk : key = k
    · simp only [if_pos hk, Option.some.injEq] at h
      subst h
      simp only [DirectiveData.mk.sizeOf_spec, List.cons.sizeOf_spec, Prod.mk.sizeOf_spec]
      omega
    · simp only [if_neg hk] at h
      have h2 := ih h
      simp only [DirectiveData.mk.sizeOf_spec, List.cons.sizeOf_spec, Prod.mk.sizeOf_spec] at h2 ⊢
      omega

/-- `func writeDirectives(buffer, directives, level)`: renders every
directive of the map in sorted key order. -/
def writeDirectives (directives : List (String × DirectiveData)) (level : Nat) : String :=
  String.join ((getSortedKeys directives).map (fun k =>
    match lookupAssoc directives k with
    | some sub => writeDirective sub level
    | none => ""))

/-- Go regexp `\s` (RE2): exactly the characters `[\t\n\f\r ]`. -/
def goWhitespace (c : Char) : Bool :=
  c == '\t' || c == '\n' || c == '\x0c' || c == '\r' || c == ' '

/-- Prepends a character onto the piece currently being built (the
head of the accumulated piece list). -/
def consPiece (c : Char) : List (List Char) → List (List Char)
  | [] => [[c]]
  | piece :: pieces => (c :: piece) :: pieces

mutual

/-- `regSplit(text, "\s+")` on character lists: the leftmost-longest
matches of `\s+` are exactly the maximal whitespace runs, and
`FindAllStringIndex` splitting returns the pieces between consecutive
matches — including an empty piece before a leading match and after a
trailing match (`result` has `len(indexes)+1` entries). A whitespace
character closes the current piece and the rest of its run is consumed
by `afterRun`; a non-whitespace character extends the current piece. -/
def regSplitChars : List Char → List (List Char)
  | [] => [[]]
  | c :: rest =>
    if goWhitespace c then [] :: afterRun rest
    else consPiece c (regSplitChars rest)

/-- Consumes the remainder of a whitespace run, then continues
splitting. -/
def afterRun : List Char → List (List Char)
  | [] => [[]]
  | c :: rest =>
    if goWhitespace c then afterRun rest
    else consPiece c (regSplitChars rest)

end

/-- `func regSplit(text, delimeter string) []string`, specialized to the
single delimiter it is called with in the source (`"\s+"`). -/
def regSplit (text : String) : List String :=
  (regSplitChars text.data).map (fun piece => String.mk piece)

/-- `func parseArgs(text string) []string`: split on `\s+` and turn the
single-empty-string result into zero arguments. -/
def parseArgs (text : String) : List String :=
  let args := regSplit text
  if args.length = 1 ∧ args[0]? = some "" then [] else args

/-- Spec-side definition for claim C7, following the spec's words
rather than the source: "the maximal runs of non-whitespace characters
in order". Used only to compare the code's splitting against the
claim's description. -/
def specMaximalRuns : List Char → List (List Char)
  | [] => []
  | c :: rest =>
    if goWhitespace c then specMaximalRuns rest
    else (c :: rest.takeWhile (fun x => !goWhitespace x)) ::
      specMaximalRuns (rest.dropWhile (fun x => !goWhitespace x))
termination_by l => l.length
decreasing_by
  · simp only [List.length_cons]
    omega
  · have hlen : (rest.dropWhile (fun x => !goWhitespace x)).length ≤ rest.length :=
      (List.dropWhile_sublist _).length_le
    simp only [List.length_cons]
    omega

/-- `func processVariables(data interface, content string) string`:
parse `content` as a template — on a parse error, log it and return
`content` unchanged; otherwise execute the template against `data` and
return the writer's contents (the external `html/template` engine is
abstracted as the `parse` / `exec` pair). The return type carries no
error: a parse failure is never propagated to the caller. -/
def processVariables {Data Tmpl : Type} (parse : String → Except String Tmpl)
    (exec : Tmpl → Data → String) (data : Data) (content : String) : String :=
  match parse content with
  | Except.error _ => content
  | Except.ok t => exec t data

/-- `func (g *CaddyfileGenerator) checkSwarmAvailability(isFirstCheck bool)`:
`infoResult` is the outcome of the external `dockerClient.Info` call —
`some b` on success, where `b` states whether `info.Swarm.LocalNodeState`
equals `swarm.LocalNodeStateActive`; `none` on error. Returns the new
cached `swarmIsAvailable` value and whether a log line was written
(success logs only on the first check or on a changed value; an error
always logs and forces unavailability). -/
def checkSwarmAvailability (swarmIsAvailable : Bool) (isFirstCheck : Bool)
    (infoResult : Option Bool) : Bool × Bool :=
  match infoResult with
  | some newSwarmIsAvailable =>
    (newSwarmIsAvailable, isFirstCheck || newSwarmIsAvailable != swarmIsAvailable)
  | none => (false, true)

/-- A sequence of availability probes run through
`checkSwarmAvailability`, threading the cached state; only the very
first probe of the process has `isFirstCheck` set (the generator stamps
`swarmIsAvailableTime` right after every probe, so `time.IsZero` holds
only before the first one). Yields, per probe, the cached state after
the probe and whether a log line was emitted. -/
def runChecks (swarmIsAvailable isFirstCheck : Bool) : List (Option Bool) → List (Bool × Bool)
  | [] => []
  | probe :: rest =>
    let r := checkSwarmAvailability swarmIsAvailable isFirstCheck probe
    r :: runChecks r.1 false rest

/-- The cached availability value in effect just before probe `i` of a
probe sequence (the probe outcome alone determines the next cached
value, so `isFirstCheck` is irrelevant here). -/
def stateBeforeProbe (swarmIsAvailable : Bool) : List (Option Bool) → Nat → Bool
  | _, 0 => swarmIsAvailable
  | [], _ + 1 => swarmIsAvailable
  | probe :: rest, i + 1 =>
    stateBeforeProbe (checkSwarmAvailability swarmIsAvailable false probe).1 rest i

/-- The calls `update` makes to its external collaborators, in order:
`log` output, `caddy.ValidateAndExecuteDirectives` (with the document
handed over), and `ReloadCaddy`. -/
inductive LoaderCall : Type where
  | logged (text : String)
  | validated (document : String)
  | reloaded
deriving DecidableEq

/-- The fields of the `DockerLoader` struct that `update` reads or
writes (`input` stands for `input.Contents`; the timer lives outside
the model). -/
structure DockerLoader where
  skipEvents : Bool
  input : String
  processCaddyfile : Bool
  previousCaddyfile : String
  previousLogs : String
deriving DecidableEq

/-- Result of one `update` call: the mutated loader, the collaborator
calls made, and the returned boolean. -/
structure UpdateOutcome where
  loader : DockerLoader
  calls : List LoaderCall
  result : Bool
deriving DecidableEq

/-- Lines 180–187 of `update`: the optional `ProcessCaddyfile` pass
(repository code outside `loader.go`, abstracted as
`processCaddyfileFn`) followed by the empty-caddyfile placeholder
substitution. -/
def finalDocument (processCaddyfile : Bool) (processCaddyfileFn : String → String)
    (caddyfile : String) : String :=
  let caddyfile1 := if processCaddyfile then processCaddyfileFn caddyfile else caddyfile
  if caddyfile1 = "" then "# Empty caddyfile" else caddyfile1

/-- `func (dockerLoader *DockerLoader) update(reloadIfChanged bool) bool`:
`generateResult` is the outcome of `generator.GenerateCaddyFile()`
(caddyfile bytes — embedded as a string — plus diagnostic logs, or an
error), `validateOk` the verdict of the external
`caddy.ValidateAndExecuteDirectives`, and a `ReloadCaddy` invocation is
recorded as a `reloaded` call. -/
def update (dockerLoader : DockerLoader) (reloadIfChanged : Bool)
    (generateResult : Except String (String × String))
    (processCaddyfileFn : String → String) (validateOk : String → Bool) : UpdateOutcome :=
  let loader0 := { dockerLoader with skipEvents := false }
  match generateResult with
  | Except.error msg =>
    { loader := loader0
      calls := [LoaderCall.logged
        ("[INFO] ignoring docker swarm error, leaving caddyfile as is: " ++ msg)]
      result := false }
  | Except.ok (caddyfile, logs) =>
    let caddyfileChanged := loader0.previousCaddyfile != caddyfile
    let logsChanged := loader0.previousLogs != logs
    let loader1 := { loader0 with previousCaddyfile := caddyfile, previousLogs := logs }
    let logCalls := if logsChanged || caddyfileChanged then [LoaderCall.logged logs] else []
    if caddyfileChanged = false then
      { loader := loader1, calls := logCalls, result := false }
    else
      let document := finalDocument loader1.processCaddyfile processCaddyfileFn caddyfile
      if validateOk document then
        { loader := { loader1 with input := document }
          calls := logCalls ++ [LoaderCall.validated document,
              LoaderCall.logged ("[INFO] New CaddyFile:\n" ++ document)]
            ++ (if reloadIfChanged then [LoaderCall.reloaded] else [])
          result := true }
      else
        { loader := loader1
          calls := logCalls ++ [LoaderCall.validated document,
            LoaderCall.logged ("[ERROR] CaddyFile error"),
            LoaderCall.logged ("[INFO] Wrong CaddyFile:\n" ++ document)]
          result := true }

/-- Whether a collaborator call is an invocation of the external
validate-and-apply interface. -/
def isValidatedCall : LoaderCall → Bool
  | LoaderCall.validated _ => true
  | _ => false

/-- The documents handed to the external validate-and-apply interface,
in call order. -/
def validatedDocs (calls : List LoaderCall) : List String :=
  calls.filterMap (fun c =>
    match c with
    | LoaderCall.validated document => some document
    | _ => none)

/-- Unfolding equation for `writeDirective` expressed through
`writeDirectives` (the shape of the mutual recursion in the source). -/
theorem writeDirective_eq (name : String) (args : List String)
    (children : List (String × DirectiveData)) (level : Nat) :
    writeDirective (DirectiveData.mk name args children) level =
      indentStr level
      ++ (if name ≠ "" then name else "")
      ++ (if name ≠ "" ∧ args ≠ [] then " " else "")
      ++ joinArgs args
      ++ (if children.isEmpty then "" else
          " \x7b\n" ++ writeDirectives children (level + 1) ++ indentStr level ++ "\x7d")
      ++ "\n" := by
  rw [writeDirective]
  simp only [writeDirectives]
  have hfun : ∀ k, (match h : lookupAssoc children k with
      | some sub => writeDirective sub (level + 1)
      | none => "") =
    (match lookupAssoc children k with
      | some sub => writeDirective sub (level + 1)
      | none => "") := by
    intro k
    cases hx : lookupAssoc children k <;> simp
  simp only [hfun]


/-- Writing under a key always makes that key read back the written
directive. -/
theorem lookupAssoc_updateAssoc (l : List (String × DirectiveData)) (k : String)
    (v : DirectiveData) : lookupAssoc (updateAssoc l k v) k = some v := by
  induction l with
  | nil => simp [updateAssoc, lookupAssoc]
  | cons hd tl ih =>
    obtain ⟨key, w⟩ := hd
    by_cases hk : key = k
    · simp [updateAssoc, hk, lookupAssoc]
    · simp [updateAssoc, hk, lookupAssoc, ih]

/-- Overwriting an existing key leaves the key list unchanged. -/
theorem getKeys_updateAssoc {l : List (String × DirectiveData)} {k : String}
    {d : DirectiveData} (h : lookupAssoc l k = some d) (v : DirectiveData) :
    getKeys (updateAssoc l k v) = getKeys l := by
  induction l with
  | nil => simp [lookupAssoc] at h
  | cons hd tl ih =>
    obtain ⟨key, w⟩ := hd
    rw [lookupAssoc] at h
    by_cases hk : key = k
    · subst hk
      simp [updateAssoc, getKeys]
    · rw [if_neg hk] at h
      have h2 := ih h
      simp only [updateAssoc, if_neg hk, getKeys, List.map_cons] at h2 ⊢
      rw [h2]

/-- Claim C10: if a label value fails to parse as a template, variable
substitution returns the original value string unchanged; the function
returns a plain string, so no error is propagated to the caller. -/
theorem C10_parse_failure_keeps_value {Data Tmpl : Type}
    (parse : String → Except String Tmpl) (exec : Tmpl → Data → String)
    (data : Data) (content msg : String)
    (h : parse content = Except.error msg) :
    processVariables parse exec data content = content := by
  simp [processVariables, h]

/-- Witness for C10 at a concrete failing template value. -/
theorem C10_witness :
    (fun _ : String => (Except.error ("template error") : Except String Unit)) ("\x7b\x7bbad") =
      Except.error ("template error")
    ∧ processVariables (fun _ : String => (Except.error ("template error") : Except String Unit))
        (fun _ _ => "") () ("\x7b\x7bbad") = "\x7b\x7bbad" :=
  ⟨rfl, C10_parse_failure_keeps_value _ _ _ _ _ rfl⟩

/-- Claim C1 (code evidence at the failing input): on a genuine merge
conflict the new sibling key is built with Go's rune conversion
`string(val.Uint64())`, not decimal formatting. For the draw `2^62`
(indeed for every draw outside the valid code points, which is all but
a `2^-43` fraction of them) the generated suffix is the single
replacement character `�`: it is not a digit string, two different
draws produce the same suffix, and when the colliding key `k_�` already
exists, the "new sibling" silently overwrites it, losing the earlier
conflicting child. -/
theorem C1_conflict_rename_uses_rune_not_integer :
    (mergeDirectives
        (some (DirectiveData.mk "site.com" [] [("tls", DirectiveData.mk "tls" ["internal"] [])]))
        (some (DirectiveData.mk "site.com" [] [("tls", DirectiveData.mk "tls" ["off"] [])]))
        [4611686018427387904]).1
      = some (DirectiveData.mk "site.com" []
          [("tls", DirectiveData.mk "tls" ["internal"] []),
           ("tls_�", DirectiveData.mk "tls" ["off"] [])])
    ∧ createUniqueSuffix 4611686018427387904 = "�"
    ∧ createUniqueSuffix 4611686018427387904 = createUniqueSuffix 4611686018427387905
    ∧ (createUniqueSuffix 4611686018427387904).data.all isAsciiDigit = false
    ∧ (mergeDirectives
        (some (DirectiveData.mk "site.com" []
          [("tls", DirectiveData.mk "tls" ["internal"] []),
           ("tls_�", DirectiveData.mk "tls" ["off"] [])]))
        (some (DirectiveData.mk "site.com" [] [("tls", DirectiveData.mk "tls" ["selfsigned"] [])]))
        [4611686018427387906]).1
      = some (DirectiveData.mk "site.com" []
          [("tls", DirectiveData.mk "tls" ["internal"] []),
           ("tls_�", DirectiveData.mk "tls" ["selfsigned"] [])]) :=
  ⟨rfl, rfl, rfl, by decide, rfl⟩

/-- Claim C2: merging two trees whose children at key `k` are both
`proxy` directives with non-empty argument lists sharing the first
argument appends B's remaining arguments onto A's child; the key `k`
then maps to the accumulated directive and the key list is unchanged —
no sibling entry is created. -/
theorem C2_proxy_accumulation
    (a : DirectiveData) (bName : String) (bArgs : List String)
    (k : String) (nA nB : DirectiveData) (rs : List Nat)
    (hA : lookupAssoc a.children k = some nA)
    (hnameA : nA.name = "proxy") (hnameB : nB.name = "proxy")
    (hargsA : 0 < nA.args.length) (hargsB : 0 < nB.args.length)
    (hhead : nA.args.head? = nB.args.head?) :
    (mergeDirectives (some a) (some (DirectiveData.mk bName bArgs [(k, nB)])) rs).1
      = some (DirectiveData.mk a.name a.args
          (updateAssoc a.children k (nA.addArgs (nB.args.drop 1))))
    ∧ lookupAssoc (updateAssoc a.children k (nA.addArgs (nB.args.drop 1))) k
        = some (nA.addArgs (nB.args.drop 1))
    ∧ getKeys (updateAssoc a.children k (nA.addArgs (nB.args.drop 1)))
        = getKeys a.children := by
  refine ⟨?_, lookupAssoc_updateAssoc _ _ _, getKeys_updateAssoc hA _⟩
  have hcond : nA.name = "proxy" ∧ nB.name = "proxy" ∧
      0 < nA.args.length ∧ 0 < nB.args.length ∧ nA.args.head? = nB.args.head? :=
    ⟨hnameA, hnameB, hargsA, hargsB, hhead⟩
  obtain ⟨aName, aArgs, aChildren⟩ := a
  simp only [DirectiveData.children, DirectiveData.name, DirectiveData.args] at hA ⊢
  rw [mergeDirectives]
  simp only [DirectiveData.children, DirectiveData.name, DirectiveData.args]
  rw [mergeChildren, hA]
  simp only [if_pos hcond]
  rw [mergeChildren]
  rfl

/-- Witness for C2: two proxy directives for source path `/` with one
backend each accumulate into one proxy directive with both backends. -/
theorem C2_witness :
    lookupAssoc [("proxy", DirectiveData.mk "proxy" ["/", "10.0.0.1:8080"] [])] "proxy"
      = some (DirectiveData.mk "proxy" ["/", "10.0.0.1:8080"] [])
    ∧ (DirectiveData.mk "proxy" ["/", "10.0.0.1:8080"] []).name = "proxy"
    ∧ 0 < (DirectiveData.mk "proxy" ["/", "10.0.0.1:8080"] []).args.length
    ∧ (mergeDirectives
        (some (DirectiveData.mk "site.com" []
          [("proxy", DirectiveData.mk "proxy" ["/", "10.0.0.1:8080"] [])]))
        (some (DirectiveData.mk "site.com" []
          [("proxy", DirectiveData.mk "proxy" ["/", "10.0.0.2:8080"] [])]))
        []).1
      = some (DirectiveData.mk "site.com" []
          (updateAssoc [("proxy", DirectiveData.mk "proxy" ["/", "10.0.0.1:8080"] [])] "proxy"
            ((DirectiveData.mk "proxy" ["/", "10.0.0.1:8080"] []).addArgs
              (["/", "10.0.0.2:8080"].drop 1)))) :=
  ⟨rfl, rfl, by decide,
    (C2_proxy_accumulation
      (DirectiveData.mk "site.com" [] [("proxy", DirectiveData.mk "proxy" ["/", "10.0.0.1:8080"] [])])
      "site.com" [] "proxy"
      (DirectiveData.mk "proxy" ["/", "10.0.0.1:8080"] [])
      (DirectiveData.mk "proxy" ["/", "10.0.0.2:8080"] [])
      [] rfl rfl rfl (by decide) (by decide) rfl).1⟩

/-- The optional diagnostics log call contributes no validation call. -/
theorem validatedDocs_logCall (b : Bool) (x : String) :
    validatedDocs (if b then [LoaderCall.logged x] else []) = [] := by
  cases b <;> rfl

/-- Claim C4: a cycle whose newly generated bytes equal the stored
`previousCaddyfile` returns `false` without calling the external
validate/apply collaborator and without reloading, and leaves the
active input untouched; moreover every successful generation stores its
bytes as `previousCaddyfile`, so re-running a cycle over an unchanged
resource set never applies a second time. -/
theorem C4_unchanged_skips_validation (dockerLoader : DockerLoader) (reloadIfChanged : Bool)
    (caddyfile logs : String) (processCaddyfileFn : String → String)
    (validateOk : String → Bool) :
    (update dockerLoader reloadIfChanged (Except.ok (caddyfile, logs))
        processCaddyfileFn validateOk).loader.previousCaddyfile = caddyfile
    ∧ (dockerLoader.previousCaddyfile = caddyfile →
        validatedDocs (update dockerLoader reloadIfChanged (Except.ok (caddyfile, logs))
            processCaddyfileFn validateOk).calls = []
        ∧ LoaderCall.reloaded ∉ (update dockerLoader reloadIfChanged (Except.ok (caddyfile, logs))
            processCaddyfileFn validateOk).calls
        ∧ (update dockerLoader reloadIfChanged (Except.ok (caddyfile, logs))
            processCaddyfileFn validateOk).result = false
        ∧ (update dockerLoader reloadIfChanged (Except.ok (caddyfile, logs))
            processCaddyfileFn validateOk).loader.input = dockerLoader.input) := by
  by_cases hch : dockerLoader.previousCaddyfile = caddyfile
  · subst hch
    refine ⟨?_, fun _ => ⟨?_, ?_, ?_, ?_⟩⟩ <;>
      · simp only [update, bne_self_eq_false]
        cases hb : dockerLoader.previousLogs != logs <;>
          simp [validatedDocs, hb]
  · have hbne : (dockerLoader.previousCaddyfile != caddyfile) = true :=
      bne_iff_ne.mpr hch
    refine ⟨?_, fun h => absurd h hch⟩
    simp only [update, hbne]
    cases hv : validateOk (finalDocument dockerLoader.processCaddyfile processCaddyfileFn caddyfile) <;>
      simp [hv]

/-- Witness for C4: a cycle regenerating the stored bytes makes no
validate call, no reload, returns `false` and keeps the input. -/
theorem C4_witness :
    (DockerLoader.mk true "old-input" false "site" "oldlogs").previousCaddyfile = "site"
    ∧ validatedDocs (update (DockerLoader.mk true "old-input" false "site" "oldlogs") true
        (Except.ok ("site", "newlogs")) id (fun _ => true)).calls = []
    ∧ LoaderCall.reloaded ∉ (update (DockerLoader.mk true "old-input" false "site" "oldlogs") true
        (Except.ok ("site", "newlogs")) id (fun _ => true)).calls
    ∧ (update (DockerLoader.mk true "old-input" false "site" "oldlogs") true
        (Except.ok ("site", "newlogs")) id (fun _ => true)).result = false
    ∧ (update (DockerLoader.mk true "old-input" false "site" "oldlogs") true
        (Except.ok ("site", "newlogs")) id (fun _ => true)).loader.input = "old-input" :=
  have h := (C4_unchanged_skips_validation (DockerLoader.mk true "old-input" false "site" "oldlogs")
    true "site" "newlogs" id (fun _ => true)).2 rfl
  ⟨rfl, h.1, h.2.1, h.2.2.1, h.2.2.2⟩

/-- Claim C5: when the external validation rejects the newly generated
document, the active input keeps its previous value, `previousCaddyfile`
is nevertheless updated to the new (rejected) generation, no reload
happens, and a subsequent cycle generating the same bytes makes no
validation call at all. -/
theorem C5_rejected_document_not_applied (dockerLoader : DockerLoader)
    (reloadIfChanged : Bool) (caddyfile logs : String)
    (processCaddyfileFn : String → String) (validateOk : String → Bool)
    (hchanged : dockerLoader.previousCaddyfile ≠ caddyfile)
    (hreject : validateOk (finalDocument dockerLoader.processCaddyfile
        processCaddyfileFn caddyfile) = false) :
    (update dockerLoader reloadIfChanged (Except.ok (caddyfile, logs))
        processCaddyfileFn validateOk).loader.input = dockerLoader.input
    ∧ (update dockerLoader reloadIfChanged (Except.ok (caddyfile, logs))
        processCaddyfileFn validateOk).loader.previousCaddyfile = caddyfile
    ∧ LoaderCall.reloaded ∉ (update dockerLoader reloadIfChanged (Except.ok (caddyfile, logs))
        processCaddyfileFn validateOk).calls
    ∧ ∀ reload2 logs2,
        validatedDocs (update (update dockerLoader reloadIfChanged (Except.ok (caddyfile, logs))
            processCaddyfileFn validateOk).loader reload2 (Except.ok (caddyfile, logs2))
            processCaddyfileFn validateOk).calls = [] := by
  have hbne : (dockerLoader.previousCaddyfile != caddyfile) = true :=
    bne_iff_ne.mpr hchanged
  refine ⟨?_, ?_, ?_, ?_⟩
  · simp [update, hbne, hreject]
  · simp [update, hbne, hreject]
  · simp only [update, hbne]
    cases hb : dockerLoader.previousLogs != logs <;> simp [hb, hreject]
  · intro reload2 logs2
    simp only [update, hbne, hreject]
    cases hb : dockerLoader.previousLogs != logs <;>
      cases hb2 : logs != logs2 <;>
        simp [hb, hb2, hreject, bne_self_eq_false, validatedDocs]

/-- Witness for C5: a changed generation rejected by validation keeps
the old input, remembers the rejected bytes, and the identical next
cycle skips validation. -/
theorem C5_witness :
    (DockerLoader.mk true "good-input" false "old" "logs").previousCaddyfile ≠ "broken"
    ∧ (fun _ : String => false) (finalDocument false id "broken") = false
    ∧ (update (DockerLoader.mk true "good-input" false "old" "logs") true
        (Except.ok ("broken", "logs")) id (fun _ => false)).loader.input = "good-input"
    ∧ (update (DockerLoader.mk true "good-input" false "old" "logs") true
        (Except.ok ("broken", "logs")) id (fun _ => false)).loader.previousCaddyfile = "broken"
    ∧ LoaderCall.reloaded ∉ (update (DockerLoader.mk true "good-input" false "old" "logs") true
        (Except.ok ("broken", "logs")) id (fun _ => false)).calls
    ∧ validatedDocs (update (update (DockerLoader.mk true "good-input" false "old" "logs") true
        (Except.ok ("broken", "logs")) id (fun _ => false)).loader false
        (Except.ok ("broken", "logs2")) id (fun _ => false)).calls = [] :=
  have h := C5_rejected_document_not_applied (DockerLoader.mk true "good-input" false "old" "logs")
    true "broken" "logs" id (fun _ => false) (by decide) rfl
  ⟨by decide, rfl, h.1, h.2.1, h.2.2.1, h.2.2.2 false "logs2"⟩

/-- Claim C9: a cycle whose generated output is empty (and differs from
the stored previous output, so that validation is reached at all) hands
the external validate/apply collaborator exactly the placeholder
document `# Empty caddyfile`, not an empty document (stated for the
default configuration in which the `ProcessCaddyfile` pass is off). -/
theorem C9_empty_output_validates_placeholder (dockerLoader : DockerLoader)
    (reloadIfChanged : Bool) (logs : String) (processCaddyfileFn : String → String)
    (validateOk : String → Bool)
    (hprev : dockerLoader.previousCaddyfile ≠ "")
    (hproc : dockerLoader.processCaddyfile = false) :
    validatedDocs (update dockerLoader reloadIfChanged (Except.ok ("", logs))
        processCaddyfileFn validateOk).calls = ["# Empty caddyfile"] := by
  have hbne : (dockerLoader.previousCaddyfile != "") = true :=
    bne_iff_ne.mpr hprev
  simp only [update, hbne, finalDocument, hproc]
  cases hv : validateOk "# Empty caddyfile" <;>
    cases hb : dockerLoader.previousLogs != logs <;>
      cases reloadIfChanged <;>
        simp [hv, hb, validatedDocs]

/-- Witness for C9: an empty generation over a non-empty previous
output validates the placeholder comment. -/
theorem C9_witness :
    (DockerLoader.mk true "good-input" false "old" "logs").previousCaddyfile ≠ ""
    ∧ (DockerLoader.mk true "good-input" false "old" "logs").processCaddyfile = false
    ∧ validatedDocs (update (DockerLoader.mk true "good-input" false "old" "logs") true
        (Except.ok ("", "logs")) id (fun _ => true)).calls = ["# Empty caddyfile"] :=
  ⟨by decide, rfl,
    C9_empty_output_validates_placeholder (DockerLoader.mk true "good-input" false "old" "logs")
      true "logs" id (fun _ => true) (by decide) rfl⟩

/-- Claim C6 counterexample: a nameless, argument-less node with one
child is NOT rendered as its children flattened at the current level —
the code writes an anonymous brace block around them. -/
theorem C6_counterexample :
    writeDirective (DirectiveData.mk "" [] [("foo", DirectiveData.mk "foo" ["bar"] [])]) 0
      ≠ writeDirectives [("foo", DirectiveData.mk "foo" ["bar"] [])] 0 := by
  have hleaf1 : writeDirective (DirectiveData.mk "foo" ["bar"] []) 1 = "  foo bar\n" := by
    rw [writeDirective_eq]
    rfl
  have hleaf0 : writeDirective (DirectiveData.mk "foo" ["bar"] []) 0 = "foo bar\n" := by
    rw [writeDirective_eq]
    rfl
  have hlist1 : writeDirectives [("foo", DirectiveData.mk "foo" ["bar"] [])] 1 = "  foo bar\n" := by
    simp [writeDirectives, getSortedKeys, getKeys, lookupAssoc, hleaf1, String.join]
  have hlist0 : writeDirectives [("foo", DirectiveData.mk "foo" ["bar"] [])] 0 = "foo bar\n" := by
    simp [writeDirectives, getSortedKeys, getKeys, lookupAssoc, hleaf0, String.join]
  have htop : writeDirective (DirectiveData.mk "" []
      [("foo", DirectiveData.mk "foo" ["bar"] [])]) 0 = " \x7b\n  foo bar\n\x7d\n" := by
    rw [writeDirective_eq, hlist1]
    rfl
  rw [htop, hlist0]
  decide

/-- Claim C6 amended: a nameless, argument-less node with a non-empty
children map renders as an anonymous brace block — current indentation,
` {`, the children at the NEXT nesting level, and a closing `}` at the
current indentation — rather than the children flattened at the current
level. -/
theorem C6_amended_anonymous_block (children : List (String × DirectiveData)) (level : Nat)
    (h : children ≠ []) :
    writeDirective (DirectiveData.mk "" [] children) level =
      indentStr level ++ " \x7b\n" ++ writeDirectives children (level + 1)
        ++ indentStr level ++ "\x7d" ++ "\n" := by
  rw [writeDirective_eq]
  have hne : children.isEmpty = false := by
    cases children with
    | nil => exact absurd rfl h
    | cons a l => rfl
  simp [hne, joinArgs, String.append_assoc, String.append_empty, String.empty_append]

/-- Witness for the amended C6 at a concrete one-child tree. -/
theorem C6_amended_witness :
    ([("foo", DirectiveData.mk "foo" ["bar"] [])] : List (String × DirectiveData)) ≠ []
    ∧ writeDirective (DirectiveData.mk "" [] [("foo", DirectiveData.mk "foo" ["bar"] [])]) 0
      = indentStr 0 ++ " \x7b\n" ++ writeDirectives [("foo", DirectiveData.mk "foo" ["bar"] [])] 1
        ++ indentStr 0 ++ "\x7d" ++ "\n" :=
  ⟨List.cons_ne_nil _ _,
    C6_amended_anonymous_block [("foo", DirectiveData.mk "foo" ["bar"] [])] 0
      (List.cons_ne_nil _ _)⟩

/-- The new cached availability value depends only on the probe
outcome, not on whether this is the first check. -/
theorem checkSwarmAvailability_fst (st first : Bool) (p : Option Bool) :
    (checkSwarmAvailability st first p).1 = (checkSwarmAvailability st false p).1 := by
  cases p <;> rfl

/-- One probe result per probe. -/
theorem runChecks_length (st first : Bool) (probes : List (Option Bool)) :
    (runChecks st first probes).length = probes.length := by
  induction probes generalizing st first with
  | nil => rfl
  | cons p ps ih => simp [runChecks, ih]

/-- Claim C8 counterexample: starting from a fresh prober (cached state
unavailable, first check pending), two failing probes in a row make the
second probe emit a log line even though it is not the first-ever probe
and its outcome leaves the cached availability state unchanged
(`false` before and after) — refuting the claim instance. -/
theorem C8_counterexample :
    ¬ ((((runChecks false true [none, none]).get ⟨1, by decide⟩).2 = true) →
        (1 = 0 ∨ ((runChecks false true [none, none]).get ⟨1, by decide⟩).1
          ≠ stateBeforeProbe false [none, none] 1)) := by
  decide

/-- Claim C8 amended: over any probe sequence, probe `i` emits a log
line exactly when it is the first-ever probe, or its outcome differs
from the cached availability value — where a failed probe counts as
differing from a cached `true` AND always logs (the error branch logs
unconditionally): formally, a line is logged iff (`i = 0` and the run
starts at the first-ever check) or the probe outcome is not a success
returning exactly the cached value. Steady successful repetition stays
silent; steady failure does not. -/
theorem C8_amended_log_condition (st first : Bool) (probes : List (Option Bool)) (i : Nat)
    (h : i < probes.length) (h2 : i < (runChecks st first probes).length) :
    (((runChecks st first probes)[i]).2 = true ↔
      ((i = 0 ∧ first = true) ∨ probes[i] ≠ some (stateBeforeProbe st probes i))) := by
  induction probes generalizing st first i with
  | nil => simp at h
  | cons p ps ih =>
    cases i with
    | zero =>
      cases p with
      | none => simp [runChecks, checkSwarmAvailability, stateBeforeProbe]
      | some b =>
        simp only [runChecks, checkSwarmAvailability, stateBeforeProbe, List.getElem_cons_zero]
        cases first <;> cases b <;> cases st <;> simp
    | succ j =>
      have hj : j < ps.length := by simpa using h
      have hj2 : j < (runChecks (checkSwarmAvailability st first p).1 false ps).length := by
        rw [runChecks_length]
        exact hj
      have hrec := ih (checkSwarmAvailability st first p).1 false j hj hj2
      simp only [runChecks, List.getElem_cons_succ] at hrec ⊢
      rw [hrec]
      simp [stateBeforeProbe, checkSwarmAvailability_fst]

/-- Witness for the amended C8: with a successful first probe and a
repeated equal outcome, the second probe logs nothing. -/
theorem C8_witness :
    1 < ([some true, some true] : List (Option Bool)).length
    ∧ 1 < (runChecks false true [some true, some true]).length
    ∧ ((((runChecks false true [some true, some true]).get ⟨1, by decide⟩).2 = true ↔
        ((1 = 0 ∧ true = true) ∨ ([some true, some true] : List (Option Bool)).get ⟨1, by decide⟩
          ≠ some (stateBeforeProbe false [some true, some true] 1)))) :=
  ⟨by decide, by decide,
    C8_amended_log_condition false true [some true, some true] 1 (by decide) (by decide)⟩

/-- Sorting the keys of two maps holding the same bindings (in any
order) yields the same key sequence. -/
theorem getSortedKeys_eq_of_perm {l1 l2 : List (String × DirectiveData)}
    (h : l1.Perm l2) : getSortedKeys l1 = getSortedKeys l2 :=
  List.eq_of_perm_of_sorted
    (((List.perm_insertionSort keyOrder (getKeys l1)).trans (h.map Prod.fst)).trans
      (List.perm_insertionSort keyOrder (getKeys l2)).symm)
    (List.sorted_insertionSort keyOrder (getKeys l1))
    (List.sorted_insertionSort keyOrder (getKeys l2))

/-- A successful lookup comes from a binding of the list. -/
theorem mem_of_lookupAssoc_eq_some {l : List (String × DirectiveData)} {k : String}
    {d : DirectiveData} (h : lookupAssoc l k = some d) : (k, d) ∈ l := by
  induction l with
  | nil => simp [lookupAssoc] at h
  | cons hd tl ih =>
    obtain ⟨key, v⟩ := hd
    rw [lookupAssoc] at h
    by_cases hk : key = k
    · subst hk
      rw [if_pos rfl] at h
      injection h with hv
      subst hv
      exact List.mem_cons_self _ _
    · rw [if_neg hk] at h
      exact List.mem_cons_of_mem _ (ih h)

/-- A lookup misses exactly when the key is absent. -/
theorem lookupAssoc_eq_none_iff {l : List (String × DirectiveData)} {k : String} :
    lookupAssoc l k = none ↔ k ∉ getKeys l := by
  induction l with
  | nil => simp [lookupAssoc, getKeys]
  | cons hd tl ih =>
    obtain ⟨key, v⟩ := hd
    rw [lookupAssoc]
    by_cases hk : key = k
    · subst hk
      simp [getKeys]
    · rw [if_neg hk, ih]
      have hne : ¬ k = key := fun he => hk he.symm
      simp [getKeys, hne]

/-- With duplicate-free keys (the Go map invariant), membership of a
binding determines the lookup result. -/
theorem lookupAssoc_eq_some_of_mem {k : String} {d : DirectiveData} :
    ∀ {l : List (String × DirectiveData)}, (getKeys l).Nodup → (k, d) ∈ l →
      lookupAssoc l k = some d := by
  intro l
  induction l with
  | nil =>
    intro _ hm
    simp at hm
  | cons hd tl ih =>
    obtain ⟨key, v⟩ := hd
    intro hnd hm
    simp only [getKeys, List.map_cons, List.nodup_cons] at hnd
    rcases List.mem_cons.mp hm with he | hm2
    · obtain ⟨hk, hv⟩ := Prod.ext_iff.mp he
      subst hk
      subst hv
      rw [lookupAssoc, if_pos rfl]
    · by_cases hk : key = k
      · subst hk
        exact absurd (List.mem_map_of_mem Prod.fst hm2) hnd.1
      · rw [lookupAssoc, if_neg hk]
        exact ih hnd.2 hm2

/-- Two maps holding the same bindings with duplicate-free keys agree
on every lookup. -/
theorem lookupAssoc_eq_of_perm {l1 l2 : List (String × DirectiveData)}
    (hp : l1.Perm l2) (hnd : (getKeys l1).Nodup) (k : String) :
    lookupAssoc l1 k = lookupAssoc l2 k := by
  have hnd2 : (getKeys l2).Nodup := ((hp.map Prod.fst).nodup_iff).mp hnd
  cases hx : lookupAssoc l1 k with
  | some d =>
    exact (lookupAssoc_eq_some_of_mem hnd2 (hp.mem_iff.mp (mem_of_lookupAssoc_eq_some hx))).symm
  | none =>
    have hnotin : k ∉ getKeys l2 := fun hmem =>
      (lookupAssoc_eq_none_iff.mp hx) (((hp.map Prod.fst).mem_iff).mpr hmem)
    exact (lookupAssoc_eq_none_iff.mpr hnotin).symm

/-- Claim C3: serialization iterates every level in sorted key order,
so two directive maps holding the same key-to-node bindings — in any
insertion order — serialize to byte-identical output. -/
theorem C3_serialization_deterministic (l1 l2 : List (String × DirectiveData)) (level : Nat)
    (hp : l1.Perm l2) (hnd : (getKeys l1).Nodup) :
    writeDirectives l1 level = writeDirectives l2 level := by
  unfold writeDirectives
  rw [getSortedKeys_eq_of_perm hp]
  congr 1
  apply List.map_congr_left
  intro k _
  rw [lookupAssoc_eq_of_perm hp hnd k]

/-- Witness for C3: the same two bindings in both insertion orders
serialize identically. -/
theorem C3_witness :
    ([("b", DirectiveData.mk "b" ["1"] []), ("a", DirectiveData.mk "a" ["2"] [])]
        : List (String × DirectiveData)).Perm
      [("a", DirectiveData.mk "a" ["2"] []), ("b", DirectiveData.mk "b" ["1"] [])]
    ∧ (getKeys [("b", DirectiveData.mk "b" ["1"] []),
        ("a", DirectiveData.mk "a" ["2"] [])]).Nodup
    ∧ writeDirectives [("b", DirectiveData.mk "b" ["1"] []),
        ("a", DirectiveData.mk "a" ["2"] [])] 0
      = writeDirectives [("a", DirectiveData.mk "a" ["2"] []),
          ("b", DirectiveData.mk "b" ["1"] [])] 0 :=
  ⟨List.Perm.swap _ _ _, by decide,
    C3_serialization_deterministic _ _ 0 (List.Perm.swap _ _ _) (by decide)⟩

/-- `consPiece` never empties the piece list. -/
theorem consPiece_ne_nil (c : Char) (ps : List (List Char)) : consPiece c ps ≠ [] := by
  cases ps <;> simp [consPiece]

/-- `afterRun` always returns at least one piece. -/
theorem afterRun_ne_nil (cs : List Char) : afterRun cs ≠ [] := by
  induction cs with
  | nil => simp [afterRun]
  | cons c rest ih =>
    rw [afterRun]
    by_cases hw : goWhitespace c
    · simpa [hw] using ih
    · simp [hw, consPiece_ne_nil]

/-- The split always returns at least one piece
(`len(indexes)+1` entries in the source). -/
theorem regSplitChars_ne_nil (cs : List Char) : regSplitChars cs ≠ [] := by
  cases cs with
  | nil => simp [regSplitChars]
  | cons c rest =>
    rw [regSplitChars]
    by_cases hw : goWhitespace c
    · simp [hw]
    · simp [hw, consPiece_ne_nil]

/-- Consuming the remainder of a whitespace run is dropping the leading
whitespace and splitting what remains. -/
theorem afterRun_eq_dropWhile (cs : List Char) :
    afterRun cs = regSplitChars (cs.dropWhile goWhitespace) := by
  induction cs with
  | nil => rfl
  | cons c rest ih =>
    rw [afterRun, List.dropWhile_cons]
    by_cases hw : goWhitespace c
    · simp [hw, ih]
    · simp [hw, regSplitChars]

/-- A run-free text is a single piece. -/
theorem regSplitChars_all_nonws :
    ∀ cs : List Char, (∀ a ∈ cs, goWhitespace a = false) → regSplitChars cs = [cs] := by
  intro cs
  induction cs with
  | nil => intro _; rfl
  | cons c rest ih =>
    intro hall
    have hc : goWhitespace c = false := hall c (List.mem_cons_self _ _)
    rw [regSplitChars, if_neg (by simp [hc]),
      ih (fun a ha => hall a (List.mem_cons_of_mem _ ha)), consPiece]

/-- A whitespace-only text leaves `afterRun` with one empty piece. -/
theorem afterRun_all_ws :
    ∀ cs : List Char, (∀ a ∈ cs, goWhitespace a = true) → afterRun cs = [[]] := by
  intro cs
  induction cs with
  | nil => intro _; rfl
  | cons c rest ih =>
    intro hall
    rw [afterRun, if_pos (hall c (List.mem_cons_self _ _))]
    exact ih (fun a ha => hall a (List.mem_cons_of_mem _ ha))

/-- Splitting after a run-free block prepends the block onto the first
piece of the remainder's split. -/
theorem regSplitChars_append_nonws :
    ∀ (t d : List Char) (p : List Char) (ps : List (List Char)),
      (∀ a ∈ t, goWhitespace a = false) → regSplitChars d = p :: ps →
      regSplitChars (t ++ d) = (t ++ p) :: ps := by
  intro t
  induction t with
  | nil =>
    intro d p ps _ hd
    simpa using hd
  | cons c t2 ih =>
    intro d p ps hall hd
    have hc : goWhitespace c = false := hall c (List.mem_cons_self _ _)
    rw [List.cons_append, regSplitChars, if_neg (by simp [hc]),
      ih d p ps (fun a ha => hall a (List.mem_cons_of_mem _ ha)) hd, consPiece]
    simp

/-- The head of a `dropWhile` residue fails the predicate. -/
theorem dropWhile_head_not {p : Char → Bool} :
    ∀ {l : List Char} {w : Char} {ds : List Char}, l.dropWhile p = w :: ds → p w = false := by
  intro l
  induction l with
  | nil =>
    intro w ds h
    simp at h
  | cons a l2 ih =>
    intro w ds h
    rw [List.dropWhile_cons] at h
    by_cases ha : p a
    · rw [if_pos (by simp [ha])] at h
      exact ih h
    · rw [if_neg (by simp [ha])] at h
      injection h with h1 _
      subst h1
      simpa using ha

/-- The spec-side maximal runs ignore leading whitespace. -/
theorem specMaximalRuns_dropWhile (cs : List Char) :
    specMaximalRuns (cs.dropWhile goWhitespace) = specMaximalRuns cs := by
  induction cs with
  | nil => rfl
  | cons c rest ih =>
    rw [List.dropWhile_cons]
    by_cases hw : goWhitespace c
    · rw [if_pos (by simp [hw]), ih, specMaximalRuns, if_pos (by simp [hw])]
    · rw [if_neg (by simp [hw])]

/-- On a text with no leading and no trailing whitespace, the code's
split equals the spec's maximal non-whitespace runs. -/
theorem regSplitChars_eq_spec :
    ∀ (n : Nat) (cs : List Char), cs.length ≤ n → cs ≠ [] →
      (∀ a, cs.head? = some a → goWhitespace a = false) →
      (∀ a, cs.getLast? = some a → goWhitespace a = false) →
      regSplitChars cs = specMaximalRuns cs := by
  intro n
  induction n with
  | zero =>
    intro cs hlen hne _ _
    cases cs with
    | nil => exact absurd rfl hne
    | cons c rest => simp at hlen
  | succ n ih =>
    intro cs hlen hne hhead hlast
    cases cs with
    | nil => exact absurd rfl hne
    | cons c rest =>
    have hc : goWhitespace c = false := hhead c rfl
    have htd : rest.takeWhile (fun x => !goWhitespace x)
        ++ rest.dropWhile (fun x => !goWhitespace x) = rest :=
      List.takeWhile_append_dropWhile _ _
    have htall : ∀ a ∈ rest.takeWhile (fun x => !goWhitespace x), goWhitespace a = false := by
      intro a ha
      have := List.mem_takeWhile_imp ha
      simpa using this
    rw [regSplitChars, if_neg (by simp [hc]), specMaximalRuns, if_neg (by simp [hc])]
    by_cases hd : rest.dropWhile (fun x => !goWhitespace x) = []
    · have hteq : rest.takeWhile (fun x => !goWhitespace x) = rest := by
        rw [hd, List.append_nil] at htd
        exact htd
      have hallnw : ∀ a ∈ rest, goWhitespace a = false := by
        intro a ha
        rw [← hteq] at ha
        exact htall a ha
      rw [regSplitChars_all_nonws rest hallnw, hd, specMaximalRuns, consPiece, hteq]
    · obtain ⟨w, d2, hwd⟩ : ∃ w d2, rest.dropWhile (fun x => !goWhitespace x) = w :: d2 := by
        cases hx : rest.dropWhile (fun x => !goWhitespace x) with
        | nil => exact absurd hx hd
        | cons a b => exact ⟨a, b, rfl⟩
      have hw : goWhitespace w = true := by
        have := dropWhile_head_not hwd
        simpa using this
      -- the tail after the whitespace run
      have hlen2 : (d2.dropWhile goWhitespace).length ≤ n := by
        have h1 : (d2.dropWhile goWhitespace).length ≤ d2.length :=
          (List.dropWhile_sublist _).length_le
        have h2 : (rest.dropWhile (fun x => !goWhitespace x)).length ≤ rest.length :=
          (List.dropWhile_sublist _).length_le
        rw [hwd] at h2
        simp only [List.length_cons] at h2 hlen
        omega
      have hsuffix : (d2.dropWhile goWhitespace) <:+ (c :: rest) := by
        have s1 : (d2.dropWhile goWhitespace) <:+ d2 := List.dropWhile_suffix _
        have s2 : d2 <:+ w :: d2 := List.suffix_cons _ _
        have s3 : (w :: d2) <:+ rest := by
          have := List.dropWhile_suffix (fun x => !goWhitespace x) (l := rest)
          rw [hwd] at this
          exact this
        have s4 : rest <:+ c :: rest := List.suffix_cons _ _
        exact ((s1.trans s2).trans s3).trans s4
      have hlaststay : ∀ a, (d2.dropWhile goWhitespace).getLast? = some a →
          (c :: rest).getLast? = some a := by
        intro a ha
        obtain ⟨front, hfront⟩ := hsuffix
        have hnnil : d2.dropWhile goWhitespace ≠ [] := by
          intro hnil
          rw [hnil] at ha
          simp at ha
        rw [← hfront, List.getLast?_append_of_ne_nil front hnnil]
        exact ha
      have hne2 : d2.dropWhile goWhitespace ≠ [] := by
        intro hnil
        have hallws : ∀ a ∈ d2, goWhitespace a = true := by
          intro a ha
          exact List.dropWhile_eq_nil_iff.mp hnil a ha
        have hg : (c :: rest).getLast? = (w :: d2).getLast? := by
          have hrest : c :: rest = (c :: rest.takeWhile (fun x => !goWhitespace x))
              ++ (w :: d2) := by
            rw [← hwd, List.cons_append, htd]
          rw [hrest, List.getLast?_append_of_ne_nil _ (List.cons_ne_nil _ _)]
        have hglast : (w :: d2).getLast? = some ((w :: d2).getLast (List.cons_ne_nil _ _)) :=
          List.getLast?_eq_getLast_of_ne_nil _
        have hmem : (w :: d2).getLast (List.cons_ne_nil _ _) ∈ w :: d2 :=
          List.getLast_mem _
        have hwsg : goWhitespace ((w :: d2).getLast (List.cons_ne_nil _ _)) = true := by
          rcases List.mem_cons.mp hmem with he | hm
          · rw [he]
            exact hw
          · exact hallws _ hm
        have := hlast _ (hg.trans hglast)
        rw [this] at hwsg
        exact Bool.false_ne_true hwsg
      have hhead2 : ∀ a, (d2.dropWhile goWhitespace).head? = some a →
          goWhitespace a = false := by
        intro a ha
        cases hx : d2.dropWhile goWhitespace with
        | nil =>
          rw [hx] at ha
          simp at ha
        | cons h tlE =>
          rw [hx] at ha
          injection ha with ha1
          subst ha1
          exact dropWhile_head_not hx
      have hlast2 : ∀ a, (d2.dropWhile goWhitespace).getLast? = some a →
          goWhitespace a = false := fun a ha => hlast a (hlaststay a ha)
      have hihe : regSplitChars (d2.dropWhile goWhitespace)
          = specMaximalRuns (d2.dropWhile goWhitespace) :=
        ih (d2.dropWhile goWhitespace) hlen2 hne2 hhead2 hlast2
      -- left-hand side
      have hsplitd : regSplitChars (rest.dropWhile (fun x => !goWhitespace x))
          = [] :: regSplitChars (d2.dropWhile goWhitespace) := by
        rw [hwd, regSplitChars, if_pos hw, afterRun_eq_dropWhile]
      have hsplitrest : regSplitChars rest
          = (rest.takeWhile (fun x => !goWhitespace x) ++ [])
            :: regSplitChars (d2.dropWhile goWhitespace) := by
        have h0 := regSplitChars_append_nonws
          (rest.takeWhile (fun x => !goWhitespace x))
          (rest.dropWhile (fun x => !goWhitespace x)) []
          (regSplitChars (d2.dropWhile goWhitespace)) htall hsplitd
        rw [htd] at h0
        exact h0
      rw [hsplitrest, consPiece, hihe]
      -- right-hand side: the spec skips the whitespace run
      rw [hwd, specMaximalRuns, if_pos hw, ← specMaximalRuns_dropWhile d2]
      simp

/-- Only the empty text splits into exactly one empty piece. -/
theorem regSplitChars_eq_single_nil {cs : List Char}
    (h : regSplitChars cs = [[]]) : cs = [] := by
  cases cs with
  | nil => rfl
  | cons c rest =>
    rw [regSplitChars] at h
    by_cases hw : goWhitespace c
    · rw [if_pos hw] at h
      injection h with _ h2
      exact absurd h2 (afterRun_ne_nil rest)
    · rw [if_neg hw] at h
      cases hx : regSplitChars rest with
      | nil => exact absurd hx (regSplitChars_ne_nil rest)
      | cons p ps =>
        rw [hx, consPiece] at h
        injection h with h1 _
        exact absurd h1 (List.cons_ne_nil c p)

/-- Claim C7 counterexample: the label value `" "` (a single space) is
whitespace-only, yet argument splitting produces two empty arguments,
not zero. -/
theorem C7_counterexample :
    parseArgs " " ≠ [] ∧ parseArgs " " = ["", ""] :=
  ⟨by decide, by decide⟩

/-- A non-empty text always yields at least one argument. -/
theorem parseArgs_ne_nil {cs : List Char} (h : cs ≠ []) :
    parseArgs (String.mk cs) ≠ [] := by
  have hdata : (String.mk cs).data = cs := rfl
  rcases hx : regSplitChars cs with _ | ⟨p, ps⟩
  · exact absurd hx (regSplitChars_ne_nil cs)
  · rw [parseArgs, regSplit, hdata, hx]
    by_cases hcond : ((p :: ps).map (fun piece => String.mk piece)).length = 1
        ∧ ((p :: ps).map (fun piece => String.mk piece))[0]? = some ""
    · exfalso
      obtain ⟨h1, h2⟩ := hcond
      simp only [List.map_cons, List.length_cons, List.length_map] at h1
      simp only [List.map_cons, List.getElem?_cons_zero, Option.some.injEq] at h2
      have hps : ps = [] := List.length_eq_zero.mp (by omega)
      have hp : p = [] := congrArg String.data h2
      rw [hps, hp] at hx
      exact h (regSplitChars_eq_single_nil hx)
    · rw [if_neg hcond]
      simp

/-- Claim C7 amended: the argument-splitting step produces zero
arguments exactly when the substituted result is the empty string; a
non-empty whitespace-only result instead produces two empty arguments;
and whenever the result neither starts nor ends with whitespace the
arguments are exactly the maximal runs of non-whitespace characters in
order, as the claim describes (otherwise an empty argument appears at
the affected end). -/
theorem C7_amended_argument_splitting (text : String) :
    (parseArgs text = [] ↔ text = "")
    ∧ (text ≠ "" → (∀ a ∈ text.data, goWhitespace a = true) → parseArgs text = ["", ""])
    ∧ (text ≠ "" →
        (∀ a, text.data.head? = some a → goWhitespace a = false) →
        (∀ a, text.data.getLast? = some a → goWhitespace a = false) →
        parseArgs text = (specMaximalRuns text.data).map (fun piece => String.mk piece)) := by
  obtain ⟨cs⟩ := text
  have hdata : (String.mk cs).data = cs := rfl
  have hempty : (String.mk cs = "") ↔ cs = [] := by
    constructor
    · intro h
      exact congrArg String.data h
    · intro h
      rw [h]
  refine ⟨?_, ?_, ?_⟩
  · constructor
    · intro h
      by_contra hne
      exact parseArgs_ne_nil (fun hnil => hne (hempty.mpr hnil)) h
    · intro h
      rw [hempty] at h
      subst h
      decide
  · intro hne hall
    rw [hdata] at hall
    have hcsne : cs ≠ [] := fun hnil => hne (hempty.mpr hnil)
    cases cs with
    | nil => exact absurd rfl hcsne
    | cons c rest =>
      have hsplit : regSplitChars (c :: rest) = [[], []] := by
        rw [regSplitChars, if_pos (hall c (List.mem_cons_self _ _)),
          afterRun_all_ws rest (fun a ha => hall a (List.mem_cons_of_mem _ ha))]
      rw [parseArgs, regSplit, hdata, hsplit]
      decide
  · intro hne hhead hlast
    have hcsne : cs ≠ [] := fun hnil => hne (hempty.mpr hnil)
    rw [hdata] at hhead hlast
    have hmain := regSplitChars_eq_spec cs.length cs le_rfl hcsne hhead hlast
    rw [parseArgs, regSplit, hdata, hmain]
    cases cs with
    | nil => exact absurd rfl hcsne
    | cons c rest =>
      have hc : goWhitespace c = false := hhead c rfl
      have hspec : specMaximalRuns (c :: rest)
          = (c :: rest.takeWhile (fun x => !goWhitespace x))
            :: specMaximalRuns (rest.dropWhile (fun x => !goWhitespace x)) := by
        rw [specMaximalRuns, if_neg (by simp [hc])]
      rw [hspec]
      refine if_neg (fun hcond2 => ?_)
      have h2 := hcond2.2
      simp only [List.map_cons, List.getElem?_cons_zero, Option.some.injEq] at h2
      exact List.cons_ne_nil _ _ (congrArg String.data h2)

/-- Witness for the amended C7 at the concrete value `"a  b"`: no edge
whitespace, so the arguments are the maximal non-whitespace runs. -/
theorem C7_witness :
    ("a  b" : String) ≠ ""
    ∧ (∀ a, ("a  b" : String).data.head? = some a → goWhitespace a = false)
    ∧ (∀ a, ("a  b" : String).data.getLast? = some a → goWhitespace a = false)
    ∧ parseArgs "a  b" = (specMaximalRuns ("a  b" : String).data).map (fun piece => String.mk piece) :=
  ⟨by decide, by decide, by decide,
    (C7_amended_argument_splitting "a  b").2.2 (by decide) (by decide) (by decide)⟩
